import Mathlib

/-!
Shallow embedding of the gnostic JSON Schema generator
(`generator/jsonschema-generator.go`, package `generator`).

Go strings are modelled as Lean `String`s; the generator only manipulates
ASCII identifiers and URLs, for which Go's byte-level operations agree with
character-level operations.  Byte-level primitives used by the source
(`len`, slicing, `strings.Replace`, `strings.ToUpper` on one character,
lexicographic `>=`) are modelled explicitly over `String.data`.
-/

/-- Go `s[n:]` (byte slicing; characters of ASCII strings). -/
def goDrop (s : String) (n : Nat) : String := ⟨s.data.drop n⟩

/-- Go `len(s)` (byte length; character count for ASCII strings). -/
def goLen (s : String) : Nat := s.data.length

/-- Go `strings.Replace(s, ".", "_", -1)`: every dot becomes an underscore. -/
def replaceDotUnderscore (s : String) : String :=
  ⟨s.data.map (fun c => if c = '.' then '_' else c)⟩

/-- Go `strings.Replace(s, "\n", "", -1)`: every newline is removed. -/
def removeNewLinesGo (s : String) : String := ⟨s.data.filter (fun c => c ≠ '\n')⟩

/-- Go `strings.ToUpper` restricted to ASCII data. -/
def goToUpper (s : String) : String := ⟨s.data.map Char.toUpper⟩

/-- Go `strings.ToLower` restricted to ASCII data. -/
def goToLower (s : String) : String := ⟨s.data.map Char.toLower⟩

/-- Go byte-lexicographic `<` on strings (ASCII data). -/
def goStrLtChars : List Char → List Char → Bool
  | [], [] => false
  | [], _ :: _ => true
  | _ :: _, [] => false
  | a :: as, b :: bs =>
    if a.toNat < b.toNat then true
    else if b.toNat < a.toNat then false
    else goStrLtChars as bs

/-- Go `a >= b` on strings. -/
def goStrGe (a b : String) : Bool := !(goStrLtChars a.data b.data)

/-- Go `strings.TrimSpace` (ASCII whitespace suffices for the comments here). -/
def goTrimSpace (s : String) : String :=
  let ws : Char → Bool := fun c => c = ' ' ∨ c = '\t' ∨ c = '\n' ∨ c = '\x0b' ∨ c = '\x0c' ∨ c = '\r'
  ⟨(s.data.dropWhile ws).reverse.dropWhile ws |>.reverse⟩

/-- Dot-joining of name components, as in protobuf full names. -/
def dotJoinStr : List String → String
  | [] => ""
  | [s] => s
  | s :: rest => s ++ "." ++ dotJoinStr rest

/-- Protobuf descriptor data used by `messageDefinitionName` and
`schemaOrReferenceForType`: the containing file's package
(`desc.ParentFile().Package()`), the names of the enclosing messages from
outermost to innermost (empty for a top-level message), and the message's
own short name (`desc.Name()`). -/
structure MessageDesc where
  pkg : String
  scope : List String
  name : String
deriving DecidableEq, Repr

/-- Protobuf full name of a descriptor: dot-join of the nonempty components.
`FullName` of the parent of a message is the package for a top-level
message and the package-prefixed enclosing path for a nested one. -/
def parentFullName (d : MessageDesc) : String :=
  dotJoinStr ((if d.pkg = "" then [] else [d.pkg]) ++ d.scope)

/-- Fully-qualified name of the message itself (used only to state
distinctness of messages in the claims). -/
def MessageDesc.fullName (d : MessageDesc) : String :=
  dotJoinStr ((if d.pkg = "" then [] else [d.pkg]) ++ d.scope ++ [d.name])

/-- `messageDefinitionName` builds the full schema definition name of a
message: strip the package from the parent's full name, prefix the result
to the short name, and replace dots with underscores. -/
def messageDefinitionName (desc : MessageDesc) : String :=
  let name := desc.name
  let pkg := desc.pkg
  let parentName := parentFullName desc
  let name :=
    if goLen pkg < goLen parentName then
      goDrop parentName (goLen pkg + 1) ++ "." ++ name
    else name
  replaceDotUnderscore name

/-!
Model of the parts of the `jsonschema` package used by the generator
(`jsonschema.Schema` and friends are in this repository but outside the
translated file; their shapes are reconstructed from the spec's SchemaNode
description and from how the generator populates them).
-/

/-- Modelled from the spec: a YAML value inside a default array.  The
generator only ever uses the empty array, so the element type is opaque. -/
inductive YamlNode where
  | mk
deriving DecidableEq, Repr

/-- Modelled from the spec: `jsonschema.StringOrStringArray`, a union of a
single type name and a list of type names. -/
structure StringOrStringArray where
  string : Option String := none
  stringArray : Option (List String) := none
deriving DecidableEq, Repr

/-- Modelled from the spec: `jsonschema.SchemaEnumValue`; the generator
only ever fills the string alternative. -/
structure SchemaEnumValue where
  string : Option String := none
deriving DecidableEq, Repr

/-- Modelled from the spec: `jsonschema.DefaultValue`, the tagged default
carried by a schema node.  Exactly one alternative is populated. -/
structure DefaultValue where
  stringValue : Option String := none
  int64Value : Option Int := none
  float64Value : Option Float := none
  booleanValue : Option Bool := none
  arrayValue : Option (List YamlNode) := none
  nullTag : Bool := false
deriving Repr

/-- Modelled from the spec: the non-recursive keywords of a SchemaNode
(`jsonschema.Schema`).  `schema` is the `$schema` keyword. -/
structure SchemaCore where
  schema : Option String := none
  id : Option String := none
  type : Option StringOrStringArray := none
  format : Option String := none
  title : Option String := none
  description : Option String := none
  default : Option DefaultValue := none
  enumeration : Option (List SchemaEnumValue) := none
  ref : Option String := none
  readOnly : Option Bool := none
  writeOnly : Option Bool := none
deriving Repr

mutual
/-- Modelled from the spec: a SchemaNode (`jsonschema.Schema`): the
non-recursive keywords plus the recursive ones.  `items` models
`*SchemaOrSchemaArray` through its single-schema alternative (the only one
the generator builds), whose inner pointer may be nil; likewise
`additionalProperties` models `*SchemaOrBoolean` through its schema
alternative. -/
inductive Schema where
  | mk (core : SchemaCore)
       (properties : Option (List NamedSchema))
       (definitions : Option (List NamedSchema))
       (items : Option (Option Schema))
       (additionalProperties : Option (Option Schema))
       (oneOf : Option (List Schema))

/-- Modelled from the spec: `jsonschema.NamedSchema`, a name plus a schema
value (the pointer is always non-nil when constructed). -/
inductive NamedSchema where
  | mk (name : String) (value : Schema)
end

def Schema.core : Schema → SchemaCore
  | .mk c _ _ _ _ _ => c

def Schema.properties : Schema → Option (List NamedSchema)
  | .mk _ p _ _ _ _ => p

def Schema.definitions : Schema → Option (List NamedSchema)
  | .mk _ _ d _ _ _ => d

def Schema.items : Schema → Option (Option Schema)
  | .mk _ _ _ i _ _ => i

def Schema.additionalProperties : Schema → Option (Option Schema)
  | .mk _ _ _ _ a _ => a

def Schema.oneOf : Schema → Option (List Schema)
  | .mk _ _ _ _ _ o => o

/-- A schema with only non-recursive keywords populated. -/
def Schema.ofCore (c : SchemaCore) : Schema := .mk c none none none none none

def Schema.withCore : Schema → SchemaCore → Schema
  | .mk _ p d i a o, c => .mk c p d i a o

def Schema.withProperties : Schema → Option (List NamedSchema) → Schema
  | .mk c _ d i a o, p => .mk c p d i a o

def Schema.withDefinitions : Schema → Option (List NamedSchema) → Schema
  | .mk c p _ i a o, d => .mk c p d i a o

def NamedSchema.name : NamedSchema → String
  | .mk n _ => n

def NamedSchema.value : NamedSchema → Schema
  | .mk _ v => v

/-! Shared string constants mirroring the source's package-level variables. -/

def typeString := "string"
def typeNumber := "number"
def typeInteger := "integer"
def typeBoolean := "boolean"
def typeObject := "object"
def typeArray := "array"
def typeNull := "null"

def formatDate := "date"
def formatDateTime := "date-time"
def formatEnum := "enum"
def formatBytes := "bytes"

def emptyString := ""
def emptyInt64 : Int := 0
def emptyFloat64 : Float := 0.0
def emptyBoolean : Bool := false
def emptyArray : List YamlNode := []

/-!
Model of the protobuf field/oneof/message descriptor data the generator
reads (`protoreflect.FieldDescriptor`, `protogen.Field`, `protogen.Oneof`,
`protogen.Message`).
-/

/-- `annotations.FieldBehavior` values relevant to the generator; all other
enum values behave like `otherBehavior`. -/
inductive FieldBehavior where
  | outputOnly
  | inputOnly
  | otherBehavior
deriving DecidableEq, Repr

/-- A field's kind together with the kind-dependent descriptor data:
`field.Message()` for message fields, `field.Enum().Values()` names for
enum fields.  `groupKind` is the one protoreflect kind the generator's
switch does not recognize (its `Message()` is the group's message type). -/
inductive FieldKind where
  | messageKind (msg : MessageDesc)
  | stringKind
  | int32Kind
  | sint32Kind
  | uint32Kind
  | int64Kind
  | sint64Kind
  | uint64Kind
  | sfixed32Kind
  | fixed32Kind
  | sfixed64Kind
  | fixed64Kind
  | enumKind (values : List String)
  | boolKind
  | floatKind
  | doubleKind
  | bytesKind
  | groupKind (msg : MessageDesc)
deriving DecidableEq, Repr

/-- `protoreflect.Kind.String()` for the kinds whose name the generator
uses as a format string. -/
def FieldKind.kindString : FieldKind → String
  | .int32Kind => "int32"
  | .sint32Kind => "sint32"
  | .uint32Kind => "uint32"
  | .int64Kind => "int64"
  | .sint64Kind => "sint64"
  | .uint64Kind => "uint64"
  | .sfixed32Kind => "sfixed32"
  | .fixed32Kind => "fixed32"
  | .sfixed64Kind => "sfixed64"
  | .fixed64Kind => "fixed64"
  | .floatKind => "float"
  | .doubleKind => "double"
  | .messageKind _ => "message"
  | .stringKind => "string"
  | .enumKind _ => "enum"
  | .boolKind => "bool"
  | .bytesKind => "bytes"
  | .groupKind _ => "group"

/-- `protoreflect.FieldDescriptor` data read by the generator: declared
name, JSON name, kind, the map-value descriptor (`MapValue()`, present iff
`IsMap()`), `IsList()`, and the `FieldBehavior` extension list. -/
inductive FieldDesc where
  | mk (name jsonName : String) (kind : FieldKind)
       (mapValue : Option FieldDesc) (isList : Bool)
       (behaviors : List FieldBehavior)
deriving Repr

def FieldDesc.name : FieldDesc → String
  | .mk n _ _ _ _ _ => n

def FieldDesc.jsonName : FieldDesc → String
  | .mk _ j _ _ _ _ => j

def FieldDesc.kind : FieldDesc → FieldKind
  | .mk _ _ k _ _ _ => k

def FieldDesc.mapValue : FieldDesc → Option FieldDesc
  | .mk _ _ _ m _ _ => m

def FieldDesc.isList : FieldDesc → Bool
  | .mk _ _ _ _ l _ => l

def FieldDesc.behaviors : FieldDesc → List FieldBehavior
  | .mk _ _ _ _ _ b => b

/-- `protogen.Field` data read by the generator: the descriptor, the Go
name, the leading comment, and whether the field belongs to a oneof
(`field.Oneof != nil`). -/
structure ProtoField where
  desc : FieldDesc
  goName : String
  leadingComment : String
  inOneof : Bool
deriving Repr

/-- `protogen.Oneof` data read by the generator. -/
structure Oneof where
  name : String
  goName : String
  fields : List ProtoField
deriving Repr

/-- `protogen.Message` data read by the generator. -/
inductive Message where
  | mk (desc : MessageDesc) (isMapEntry : Bool) (leadingComment : String)
       (messages : List Message) (oneofs : List Oneof) (fields : List ProtoField)

def Message.desc : Message → MessageDesc
  | .mk d _ _ _ _ _ => d

def Message.isMapEntry : Message → Bool
  | .mk _ e _ _ _ _ => e

def Message.leadingComment : Message → String
  | .mk _ _ c _ _ _ => c

def Message.messages : Message → List Message
  | .mk _ _ _ m _ _ => m

def Message.oneofs : Message → List Oneof
  | .mk _ _ _ _ o _ => o

def Message.fields : Message → List ProtoField
  | .mk _ _ _ _ _ f => f

/-- The generator configuration.  In the source `BaseURL`, `Version` and
`Naming` are pointers dereferenced unconditionally, so they are modelled as
plain strings; `EnumType` is nil-checked and stays optional. -/
structure Configuration where
  baseURL : String
  version : String
  naming : String
  enumType : Option String
deriving DecidableEq, Repr

/-!
The generator's pure translation core, translated function by function from
`generator/jsonschema-generator.go`.  Logging calls are side effects with no
bearing on the produced value and are dropped; the unused `definitions`
parameter of `schemaOrReferenceForField` is likewise dropped.
-/

/-- The base-URL normalization done by `NewJSONSchemaGenerator`: enforce a
trailing slash on a nonempty base URL. -/
def normalizeConfiguration (conf : Configuration) : Configuration :=
  let baseURL := conf.baseURL
  let baseURL :=
    if 0 < goLen baseURL ∧ goDrop baseURL (goLen baseURL - 1) ≠ "/" then baseURL ++ "/"
    else baseURL
  { conf with baseURL := baseURL }

/-- Literal-prefix matcher used to model the source's two regular
expressions: consume the literal `p` from the front of `cs`. -/
def eatLit : List Char → List Char → Option (List Char)
  | [], cs => some cs
  | _ :: _, [] => none
  | p :: ps, c :: cs => if c = p then eatLit ps cs else none

/-- Step of modelling `linterRulePattern = \(-- .* --\)`: given the text
following an opening `(-- `, return the text after the matching closing
` --)`.  RE2's greedy `.*` (which cannot cross a newline) selects the last
` --)` on the same line. -/
def closerScan : List Char → Option (List Char)
  | [] => none
  | c :: rest =>
    if c = '\n' then none
    else
      match closerScan rest with
      | some r => some r
      | none => eatLit (" --)".data) (c :: rest)

/-- One attempt of `linterRulePattern` at the current position. -/
def matchLinterAt (cs : List Char) : Option (List Char) :=
  match eatLit ("(-- ".data) cs with
  | none => none
  | some after => closerScan after

/-- `linterRulePattern.ReplaceAllString(comment, "")`: delete every
(leftmost-first, non-overlapping) match.  The fuel equals the input length;
every fired match consumes at least eight characters, so it never runs out. -/
def removeLinterAux : Nat → List Char → List Char
  | 0, cs => cs
  | _ + 1, [] => []
  | n + 1, c :: rest =>
    match matchLinterAt (c :: rest) with
    | some remainder => removeLinterAux n remainder
    | none => c :: removeLinterAux n rest

def removeLinterRules (cs : List Char) : List Char :=
  removeLinterAux cs.length cs

/-- `filterCommentString` removes line breaks and linter rules from
comments. -/
def filterCommentString (c : String) (removeNewLines : Bool) : String :=
  let comment := if removeNewLines then removeNewLinesGo c else c
  goTrimSpace ⟨removeLinterRules comment.data⟩

def formatMessageNameString (conf : Configuration) (name : String) : String :=
  if conf.naming = "proto" then name
  else if 1 < goLen name then goToUpper ⟨name.data.take 1⟩ ++ goDrop name 1
  else if goLen name = 1 then goToLower name
  else name

def formatOneofFieldName (conf : Configuration) (oneof : Oneof) : String :=
  if conf.naming = "proto" then oneof.name
  else
    let name := oneof.goName
    if 1 < goLen name then goToLower ⟨name.data.take 1⟩ ++ goDrop name 1
    else if goLen name = 1 then goToLower name
    else name

def formatFieldName (conf : Configuration) (field : ProtoField) : String :=
  if conf.naming = "proto" then field.desc.name
  else field.desc.jsonName

/-- One attempt of `reSchemaVersion` (pattern: `http`, optional `s` run,
`://json-schema.org/draft`, a slash or dash, the captured draft component
`([^/]+)`, then `/schema`) at the current position. -/
def draftCaptureAt (cs : List Char) : Option (List Char) :=
  match eatLit ("http".data) cs with
  | none => none
  | some rest1 =>
    let rest2 := rest1.dropWhile (fun c => c = 's')
    match eatLit ("://json-schema.org/draft".data) rest2 with
    | none => none
    | some rest3 =>
      match rest3 with
      | [] => none
      | d :: rest4 =>
        if d = '/' ∨ d = '-' then
          let cap := rest4.takeWhile (fun c => c ≠ '/')
          if cap.isEmpty then none
          else
            match eatLit ("/schema".data) (rest4.dropWhile (fun c => c ≠ '/')) with
            | some _ => some cap
            | none => none
        else none

/-- `reSchemaVersion.FindStringSubmatch`: the capture of the leftmost
match. -/
def findDraftScan : List Char → Option (List Char)
  | [] => none
  | c :: rest =>
    match draftCaptureAt (c :: rest) with
    | some cap => some cap
    | none => findDraftScan rest

/-- `getSchemaVersion` extracts the draft version component from the
document's `$schema` value (always set by `setupSchemaForMessage`; a nil
value would crash the source, hence the unreachable `""` default). -/
def getSchemaVersion (schema : Schema) : String :=
  let schemaSchema := (schema.core.schema).getD ""
  match findDraftScan schemaSchema.data with
  | some cap => ⟨cap⟩
  | none => ""

def schemaOrReferenceForType (conf : Configuration) (desc : MessageDesc) : Option Schema :=
  let typeName := "." ++ desc.pkg ++ "." ++ desc.name
  if typeName = ".google.protobuf.Timestamp" then
    some (.ofCore { type := some { string := some typeString }, format := some formatDateTime })
  else if typeName = ".google.type.Date" then
    some (.ofCore { type := some { string := some typeString }, format := some formatDate })
  else if typeName = ".google.type.DateTime" then
    some (.ofCore { type := some { string := some typeString }, format := some formatDateTime })
  else if typeName = ".google.protobuf.Struct" then
    some (.ofCore { type := some { string := some typeObject } })
  else if typeName = ".google.protobuf.Value" then
    some (.ofCore { type := some { stringArray := some [typeString, typeNumber, typeInteger, typeBoolean, typeObject, typeArray] } })
  else if typeName = ".google.protobuf.Empty" then none
  else
    some (.ofCore
      { ref := some (formatMessageNameString conf (messageDefinitionName desc) ++ ".json") })

/-- The field-kind switch of `schemaOrReferenceForField`.  The outer
`Option` models the early `return nil` inside the message case; the inner
`Option` is the `kindSchema` pointer, which stays nil through the default
(diagnostic-logging) case. -/
def schemaOrReferenceForField (conf : Configuration) : FieldDesc → Option Schema
  | .mk _ _ _ (some mapValue) _ _ =>
    some (.mk { type := some { string := some "object" } }
      none none none (some (schemaOrReferenceForField conf mapValue)) none)
  | .mk _ _ kind none isList _ =>
    let kindSchemaResult : Option (Option Schema) :=
      match kind with
      | .messageKind msg =>
        match schemaOrReferenceForType conf msg with
        | none => none
        | some s => some (some s)
      | .stringKind =>
        some (some (.ofCore { type := some { string := some typeString },
                              default := some { stringValue := some emptyString } }))
      | .int32Kind | .sint32Kind | .uint32Kind | .int64Kind | .sint64Kind | .uint64Kind
      | .sfixed32Kind | .fixed32Kind | .sfixed64Kind | .fixed64Kind =>
        some (some (.ofCore { type := some { string := some typeInteger },
                              format := some kind.kindString,
                              default := some { int64Value := some emptyInt64 } }))
      | .enumKind values =>
        if conf.enumType = some typeString then
          some (some (.ofCore { format := some formatEnum,
                                type := some { string := some typeString },
                                enumeration := some (values.map (fun n => { string := some n })),
                                default := values.head?.map (fun n => { stringValue := some n }) }))
        else
          some (some (.ofCore { format := some formatEnum,
                                type := some { string := some typeInteger },
                                default := some { int64Value := some emptyInt64 } }))
      | .boolKind =>
        some (some (.ofCore { type := some { string := some typeBoolean },
                              default := some { booleanValue := some emptyBoolean } }))
      | .floatKind | .doubleKind =>
        some (some (.ofCore { type := some { string := some typeNumber },
                              format := some kind.kindString,
                              default := some { float64Value := some emptyFloat64 } }))
      | .bytesKind =>
        some (some (.ofCore { type := some { string := some typeString },
                              format := some formatBytes,
                              default := some { stringValue := some emptyString } }))
      | .groupKind _ => some none
    match kindSchemaResult with
    | none => none
    | some kindSchema =>
      if isList then
        some (.mk { type := some { string := some "array" },
                    default := some { arrayValue := some emptyArray } }
          none none (some kindSchema) none none)
      else kindSchema

/-- The extension loop of `namedSchemaForField`: each OUTPUT_ONLY behavior
sets ReadOnly, each INPUT_ONLY sets WriteOnly. -/
def applyFieldBehaviors (s : Schema) (bs : List FieldBehavior) : Schema :=
  bs.foldl (fun acc vv =>
    match vv with
    | .outputOnly => acc.withCore { acc.core with readOnly := some true }
    | .inputOnly => acc.withCore { acc.core with writeOnly := some true }
    | .otherBehavior => acc) s

def namedSchemaForField (conf : Configuration) (field : ProtoField)
    (schema : NamedSchema) (isValueProp : Bool) : Option NamedSchema :=
  match schemaOrReferenceForField conf field.desc with
  | none => none
  | some fieldSchema0 =>
    let fieldSchema1 :=
      if goStrGe (getSchemaVersion schema.value) "07" then
        applyFieldBehaviors fieldSchema0 field.desc.behaviors
      else fieldSchema0
    let fieldName := if isValueProp then "value" else formatFieldName conf field
    let fieldSchema2 :=
      if fieldSchema1.core.ref = none then
        fieldSchema1.withCore { fieldSchema1.core with title := some fieldName }
      else fieldSchema1
    let description := filterCommentString field.leadingComment true
    let fieldSchema3 :=
      if description ≠ "" then
        fieldSchema2.withCore { fieldSchema2.core with description := some description }
      else fieldSchema2
    some (.mk fieldName fieldSchema3)

def setupSchemaForMessage (conf : Configuration) (schemaName : String)
    (comments : String) : NamedSchema :=
  let id := conf.baseURL ++ schemaName ++ ".json"
  let schema : NamedSchema := .mk schemaName
    (.mk { schema := some conf.version, id := some id,
           type := some { string := some "object" }, title := some schemaName }
      (some []) none none none none)
  let description := filterCommentString comments true
  if description ≠ "" then
    .mk schema.name (schema.value.withCore { schema.value.core with description := some description })
  else schema

def buildKindProperty (propertyValue : String) : NamedSchema :=
  let kind := "kind"
  .mk kind (.ofCore { title := some kind,
                      type := some { string := some typeString },
                      enumeration := some [{ string := some propertyValue }],
                      default := some { stringValue := some propertyValue } })

/-- Go `*schema.Value.Properties = append(*schema.Value.Properties, p)`;
the pointer is initialized by `setupSchemaForMessage` before any append. -/
def appendProperty (s : NamedSchema) (p : NamedSchema) : NamedSchema :=
  .mk s.name (s.value.withProperties (some ((s.value.properties).getD [] ++ [p])))

/-- Registering a local definition, with the nil-initialization of the
definitions list done by the source at the first use. -/
def addDefinition (s : NamedSchema) (d : NamedSchema) : NamedSchema :=
  .mk s.name (s.value.withDefinitions (some ((s.value.definitions).getD [] ++ [d])))

/-- The body of the member loop inside `addOneofFieldsToSchema`; the
accumulator carries the union list under construction and the owning
document. -/
def oneofMemberStep (conf : Configuration) (acc : List Schema × NamedSchema)
    (fieldProto : ProtoField) : List Schema × NamedSchema :=
  let ref := acc.2.name ++ "_" ++ fieldProto.goName
  let kindProperty := buildKindProperty fieldProto.desc.name
  match namedSchemaForField conf fieldProto acc.2 true with
  | none => acc
  | some actualProperty =>
    let oneofFieldSchema : NamedSchema := .mk ref
      (.mk { type := some { string := some typeObject }, title := some ref }
        (some [kindProperty, actualProperty]) none none none none)
    let definitionsRef := "#/definitions/" ++ ref
    (acc.1 ++ [.ofCore { ref := some definitionsRef }],
     addDefinition acc.2 oneofFieldSchema)

/-- The body of the group loop inside `addOneofFieldsToSchema`: build the
union (null alternative first), fold the members, then append the oneof
property to the owning document. -/
def addOneofGroup (conf : Configuration) (schema : NamedSchema) (oneOfProto : Oneof) : NamedSchema :=
  let start : List Schema × NamedSchema :=
    ([.ofCore { type := some { string := some typeNull } }], schema)
  let acc := oneOfProto.fields.foldl (oneofMemberStep conf) start
  let oneOfSchema : Schema :=
    .mk { default := some { nullTag := true } } none none none none (some acc.1)
  appendProperty acc.2 (.mk (formatOneofFieldName conf oneOfProto) oneOfSchema)

def addOneofFieldsToSchema (conf : Configuration) (oneofs : List Oneof)
    (schema : NamedSchema) : NamedSchema :=
  oneofs.foldl (addOneofGroup conf) schema

/-- The body of the plain-field loop of `buildSchemasFromMessages`: skip
oneof members, skip fields with no mapped node, append the rest. -/
def plainFieldStep (conf : Configuration) (schema : NamedSchema) (field : ProtoField) : NamedSchema :=
  if field.inOneof then schema
  else
    match namedSchemaForField conf field schema false with
    | none => schema
    | some namedSchema => appendProperty schema namedSchema

/-- `buildSchemasFromMessages` creates a schema for each message: nested
messages first, then — unless the message is a synthetic map entry — oneof
properties, plain fields, and the message's own document.  The source
recurses through one singleton call per nested message and appends the
results in order; since each list element's contribution is independent,
that loop equals one recursive call on the whole nested list, which is how
the recursion is written here. -/
def buildSchemasFromMessages (conf : Configuration) : List Message → List NamedSchema
  | [] => []
  | .mk desc isMapEntry leadingComment messages oneofs fields :: rest =>
    let schemaName := messageDefinitionName desc
    let schema := setupSchemaForMessage conf schemaName leadingComment
    (if isMapEntry then buildSchemasFromMessages conf messages
     else
       let schema := addOneofFieldsToSchema conf oneofs schema
       let schema := fields.foldl (plainFieldStep conf) schema
       buildSchemasFromMessages conf messages ++ [schema])
    ++ buildSchemasFromMessages conf rest

/-!
Spec-level descriptions of the generator's outputs, used to state and prove
the claims.
-/

/-- Underscore-join of character-level name components; the normal form of
`messageDefinitionName` on well-formed descriptors. -/
def joinUnder : List (List Char) → List Char
  | [] => []
  | [p] => p
  | p :: rest => p ++ '_' :: joinUnder rest

/-- Splitting on underscores; a retraction of `joinUnder` on
underscore-free components. -/
def splitUnder : List Char → List (List Char)
  | [] => [[]]
  | c :: cs =>
    if c = '_' then [] :: splitUnder cs
    else
      match splitUnder cs with
      | p :: ps => (c :: p) :: ps
      | [] => [[c]]

/-- A protobuf identifier component as the amended C1 needs it: nonempty,
and free of dots and underscores. -/
def plainIdent (s : String) : Prop :=
  s ≠ "" ∧ ∀ c ∈ s.data, c ≠ '.' ∧ c ≠ '_'

instance (s : String) : Decidable (plainIdent s) := by
  unfold plainIdent; infer_instance

/-- The six well-known fully-qualified type names special-cased by
`schemaOrReferenceForType`. -/
def wellKnownTypeNames : List String :=
  [".google.protobuf.Timestamp", ".google.type.Date", ".google.type.DateTime",
   ".google.protobuf.Struct", ".google.protobuf.Value", ".google.protobuf.Empty"]

/-- Whether the member loop of `addOneofFieldsToSchema` keeps a member:
exactly when the Type Mapper produces a node for it. -/
def memberKept (conf : Configuration) (f : ProtoField) : Bool :=
  (schemaOrReferenceForField conf f.desc).isSome

/-- A node holding only a local reference. -/
def localRefSchema (r : String) : Schema := .ofCore { ref := some r }

/-- The JSON null type alternative that starts every oneof union. -/
def nullTypeSchema : Schema := .ofCore { type := some { string := some typeNull } }

/-- The references the member loop appends to a oneof union list, given the
owning document's name. -/
def keptRefs (conf : Configuration) (docName : String) (fs : List ProtoField) : List Schema :=
  (fs.filter (memberKept conf)).map
    (fun f => localRefSchema ("#/definitions/" ++ (docName ++ "_" ++ f.goName)))

/-- The synthetic local definition registered for one kept oneof member,
relative to a reference document `s0` (only its name and `$schema` version
matter). -/
def memberDefFor (conf : Configuration) (s0 : NamedSchema) (f : ProtoField) : NamedSchema :=
  let ref := s0.name ++ "_" ++ f.goName
  .mk ref (.mk { type := some { string := some typeObject }, title := some ref }
    (some [buildKindProperty f.desc.name,
           (namedSchemaForField conf f s0 true).getD (.mk "" nullTypeSchema)])
    none none none none)

/-- The local definitions one oneof group registers. -/
def keptDefs (conf : Configuration) (s0 : NamedSchema) (fs : List ProtoField) : List NamedSchema :=
  (fs.filter (memberKept conf)).map (memberDefFor conf s0)

/-- Appending to the definitions list with nil-initialization on first
use: adding nothing leaves a nil list nil. -/
def appendDefs (o : Option (List NamedSchema)) (ds : List NamedSchema) : Option (List NamedSchema) :=
  match ds with
  | [] => o
  | _ :: _ => some (o.getD [] ++ ds)

/-- The oneof property appended to the owning document for one group. -/
def groupPropFor (conf : Configuration) (docName : String) (g : Oneof) : NamedSchema :=
  .mk (formatOneofFieldName conf g)
    (.mk { default := some { nullTag := true } } none none none none
      (some (nullTypeSchema :: keptRefs conf docName g.fields)))

def groupPropsFor (conf : Configuration) (docName : String) (gs : List Oneof) : List NamedSchema :=
  gs.map (groupPropFor conf docName)

/-- The plain-field properties appended to a document, relative to a
reference document `r` (only its `$schema` version matters). -/
def plainPropsFor (conf : Configuration) (r : NamedSchema) (fs : List ProtoField) : List NamedSchema :=
  fs.filterMap (fun f => if f.inOneof then none else namedSchemaForField conf f r false)

/-- All definitions registered by a message's oneof groups. -/
def allKeptDefs (conf : Configuration) (s0 : NamedSchema) (gs : List Oneof) : List NamedSchema :=
  gs.flatMap (fun g => keptDefs conf s0 g.fields)

/-- One message's own document exactly as the builder body assembles it. -/
def messageDocFor (conf : Configuration) (m : Message) : NamedSchema :=
  let schema := setupSchemaForMessage conf (messageDefinitionName m.desc) m.leadingComment
  let schema := addOneofFieldsToSchema conf m.oneofs schema
  m.fields.foldl (plainFieldStep conf) schema

/-!
Concrete inputs shared by witnesses and counterexamples.
-/

/-- A configuration with the default json naming and the draft-07 version
URI. -/
def confJson : Configuration :=
  { baseURL := "", version := "http://json-schema.org/draft-07/schema#",
    naming := "json", enumType := none }

/-- The same configuration with proto naming. -/
def confProto : Configuration :=
  { baseURL := "", version := "http://json-schema.org/draft-07/schema#",
    naming := "proto", enumType := none }

/-- String-mode enum configuration. -/
def confEnumString : Configuration :=
  { baseURL := "", version := "http://json-schema.org/draft-07/schema#",
    naming := "json", enumType := some "string" }

/-- A oneof member field whose type is the empty-marker well-known type, so
its mapped shape is empty. -/
def emptyMemberField : ProtoField :=
  { desc := .mk "e" "e" (.messageKind ⟨"google.protobuf", [], "Empty"⟩) none false [],
    goName := "E", leadingComment := "", inOneof := true }

/-- A oneof member field declared `string email` (protogen assigns the Go
name `Email` to a field declared `email`). -/
def emailMemberField : ProtoField :=
  { desc := .mk "email" "email" .stringKind none false [],
    goName := "Email", leadingComment := "", inOneof := true }

/-- The owning document named Book, as set up by the builder. -/
def bookSetup : NamedSchema := setupSchemaForMessage confJson "Book" ""

/-- Dot-join at the character level, mirroring `joinUnder`. -/
def joinDot : List (List Char) → List Char
  | [] => []
  | [p] => p
  | p :: rest => p ++ '.' :: joinDot rest

/-- A plain string field carrying the OUTPUT_ONLY behavior annotation. -/
def outputOnlyField : ProtoField :=
  { desc := .mk "serial" "serial" .stringKind none false [.outputOnly],
    goName := "Serial", leadingComment := "", inOneof := false }

/-- A plain string field with no behavior annotation. -/
def plainStringField : ProtoField :=
  { desc := .mk "title" "title" .stringKind none false [],
    goName := "Title", leadingComment := "", inOneof := false }

/-- A field of non-well-known message type with a leading comment. -/
def commentedMessageField : ProtoField :=
  { desc := .mk "author" "author" (.messageKind ⟨"pkg", [], "Author"⟩) none false [],
    goName := "Author", leadingComment := "The author of the book.", inOneof := false }

/-- A singular field of the unrecognized group kind. -/
def groupFieldSingular : FieldDesc :=
  .mk "legacy" "legacy" (.groupKind ⟨"pkg", [], "Legacy"⟩) none false []

/-- A repeated field of the unrecognized group kind. -/
def groupFieldRepeated : FieldDesc :=
  .mk "legacy" "legacy" (.groupKind ⟨"pkg", [], "Legacy"⟩) none true []

/-- A message named `book` (lower-case first letter) with one plain field. -/
def bookMessage : Message :=
  .mk ⟨"pkg", [], "book"⟩ false "" [] [] [plainStringField]

/-- A message holding one repeated group-kind field. -/
def legacyMessage : Message :=
  .mk ⟨"pkg", [], "Holder"⟩ false "" [] []
    [{ desc := groupFieldRepeated, goName := "Legacy", leadingComment := "", inOneof := false }]

/-- A oneof group whose single member maps to an empty shape. -/
def emptyOnlyOneof : Oneof :=
  { name := "contact", goName := "Contact", fields := [emptyMemberField] }

/-- A oneof group with one kept member and one skipped member. -/
def contactOneof : Oneof :=
  { name := "contact", goName := "Contact", fields := [emailMemberField, emptyMemberField] }

/-- The named schema produced for `outputOnlyField` on the Book document. -/
def outputOnlyFieldSchema : NamedSchema :=
  (namedSchemaForField confJson outputOnlyField bookSetup false).getD (.mk "" nullTypeSchema)

/-- The named schema produced for `commentedMessageField` on the Book
document. -/
def commentedFieldSchema : NamedSchema :=
  (namedSchemaForField confJson commentedMessageField bookSetup false).getD (.mk "" nullTypeSchema)

/-- The singular group-kind field as a plain protogen field. -/
def groupProtoFieldSingular : ProtoField :=
  { desc := groupFieldSingular, goName := "Legacy", leadingComment := "", inOneof := false }

/-- The repeated group-kind field as a plain protogen field. -/
def groupProtoFieldRepeated : ProtoField :=
  { desc := groupFieldRepeated, goName := "Legacy", leadingComment := "", inOneof := false }

/-!
Structural lemmas about the schema record operations.
-/

@[simp] theorem Schema.core_mk (c p d i a o) : (Schema.mk c p d i a o).core = c := rfl

@[simp] theorem Schema.properties_mk (c p d i a o) : (Schema.mk c p d i a o).properties = p := rfl

@[simp] theorem Schema.definitions_mk (c p d i a o) : (Schema.mk c p d i a o).definitions = d := rfl

@[simp] theorem Schema.items_mk (c p d i a o) : (Schema.mk c p d i a o).items = i := rfl

@[simp] theorem Schema.oneOf_mk (c p d i a o) : (Schema.mk c p d i a o).oneOf = o := rfl

@[simp] theorem NamedSchema.name_mk (n v) : (NamedSchema.mk n v).name = n := rfl

@[simp] theorem NamedSchema.value_mk (n v) : (NamedSchema.mk n v).value = v := rfl

theorem NamedSchema.eta (s : NamedSchema) : NamedSchema.mk s.name s.value = s := by
  cases s
  rfl

@[simp] theorem Schema.core_withCore (s : Schema) (c) : (s.withCore c).core = c := by
  cases s
  rfl

@[simp] theorem Schema.properties_withCore (s : Schema) (c) :
    (s.withCore c).properties = s.properties := by
  cases s
  rfl

@[simp] theorem Schema.definitions_withCore (s : Schema) (c) :
    (s.withCore c).definitions = s.definitions := by
  cases s
  rfl

@[simp] theorem Schema.oneOf_withCore (s : Schema) (c) : (s.withCore c).oneOf = s.oneOf := by
  cases s
  rfl

@[simp] theorem Schema.core_withProperties (s : Schema) (p) : (s.withProperties p).core = s.core := by
  cases s
  rfl

@[simp] theorem Schema.properties_withProperties (s : Schema) (p) :
    (s.withProperties p).properties = p := by
  cases s
  rfl

@[simp] theorem Schema.definitions_withProperties (s : Schema) (p) :
    (s.withProperties p).definitions = s.definitions := by
  cases s
  rfl

@[simp] theorem Schema.core_withDefinitions (s : Schema) (d) : (s.withDefinitions d).core = s.core := by
  cases s
  rfl

@[simp] theorem Schema.properties_withDefinitions (s : Schema) (d) :
    (s.withDefinitions d).properties = s.properties := by
  cases s
  rfl

@[simp] theorem Schema.definitions_withDefinitions (s : Schema) (d) :
    (s.withDefinitions d).definitions = d := by
  cases s
  rfl

@[simp] theorem Schema.withCore_withCore (s : Schema) (c c') :
    (s.withCore c).withCore c' = s.withCore c' := by
  cases s
  rfl

@[simp] theorem Schema.withDefinitions_withDefinitions (s : Schema) (d d') :
    (s.withDefinitions d).withDefinitions d' = s.withDefinitions d' := by
  cases s
  rfl

@[simp] theorem Schema.withProperties_withProperties (s : Schema) (p p') :
    (s.withProperties p).withProperties p' = s.withProperties p' := by
  cases s
  rfl

theorem Schema.withCore_core (s : Schema) : s.withCore s.core = s := by
  cases s
  rfl

theorem Schema.withDefinitions_self (s : Schema) : s.withDefinitions s.definitions = s := by
  cases s
  rfl

theorem Schema.withProperties_self (s : Schema) : s.withProperties s.properties = s := by
  cases s
  rfl

theorem Schema.withProperties_withDefinitions (s : Schema) (p d) :
    (s.withDefinitions d).withProperties p = (s.withProperties p).withDefinitions d := by
  cases s
  rfl

/-- The extension loop in closed form: OUTPUT_ONLY membership decides
ReadOnly, INPUT_ONLY membership decides WriteOnly, and nothing else
changes. -/
theorem applyFieldBehaviors_eq (s : Schema) (bs : List FieldBehavior) :
    applyFieldBehaviors s bs = s.withCore
      { s.core with
        readOnly := if FieldBehavior.outputOnly ∈ bs then some true else s.core.readOnly,
        writeOnly := if FieldBehavior.inputOnly ∈ bs then some true else s.core.writeOnly } := by
  induction bs generalizing s with
  | nil =>
    simp only [applyFieldBehaviors, List.foldl_nil, List.not_mem_nil, if_false]
    exact (Schema.withCore_core s).symm
  | cons b bs ih =>
    have step : applyFieldBehaviors s (b :: bs) =
        applyFieldBehaviors
          (match b with
            | .outputOnly => s.withCore { s.core with readOnly := some true }
            | .inputOnly => s.withCore { s.core with writeOnly := some true }
            | .otherBehavior => s) bs := by
      cases b <;> rfl
    rw [step]
    cases b <;> simp [ih, List.mem_cons]

/-!
Facts about the Type Mapper's raw output, before the field-level
adornments of `namedSchemaForField`.
-/

/-- Every node `schemaOrReferenceForType` produces leaves title, readOnly
and writeOnly unset. -/
theorem schemaOrReferenceForType_core_unset (conf : Configuration) (desc : MessageDesc)
    (s : Schema) (h : schemaOrReferenceForType conf desc = some s) :
    s.core.title = none ∧ s.core.readOnly = none ∧ s.core.writeOnly = none := by
  simp only [schemaOrReferenceForType] at h
  repeat' split at h
  all_goals
    first
    | exact Option.noConfusion h
    | (injection h with h; subst h; exact ⟨rfl, rfl, rfl⟩)

/-- Every node the field-kind switch produces leaves title, readOnly and
writeOnly unset. -/
theorem schemaOrReferenceForField_core_unset (conf : Configuration) (f : FieldDesc) (s : Schema)
    (h : schemaOrReferenceForField conf f = some s) :
    s.core.title = none ∧ s.core.readOnly = none ∧ s.core.writeOnly = none := by
  rcases f with ⟨n, j, k, mv, il, bs⟩
  cases mv with
  | some mval =>
    simp only [schemaOrReferenceForField, Option.some.injEq] at h
    subst h
    exact ⟨rfl, rfl, rfl⟩
  | none =>
    cases k <;> cases il <;> simp only [schemaOrReferenceForField] at h
    all_goals repeat' split at h
    all_goals
      first
      | exact Option.noConfusion h
      | (injection h with h; subst h; exact ⟨rfl, rfl, rfl⟩)
      | (rename_i heq hcond
         split at heq <;>
           first
           | exact Option.noConfusion heq
           | (injection heq with heq
              subst heq
              injection h with h
              subst h
              first
              | exact ⟨rfl, rfl, rfl⟩
              | exact schemaOrReferenceForType_core_unset conf _ _ (by assumption)))

/-!
Lemmas about `namedSchemaForField`.
-/

/-- A field yields a property node exactly when the Type Mapper yields a
node for its descriptor. -/
theorem namedSchemaForField_isSome (conf : Configuration) (field : ProtoField)
    (schema : NamedSchema) (b : Bool) :
    (namedSchemaForField conf field schema b).isSome
      = (schemaOrReferenceForField conf field.desc).isSome := by
  unfold namedSchemaForField
  cases schemaOrReferenceForField conf field.desc <;> rfl

/-- `namedSchemaForField` reads its `schema` argument only through the
document's `$schema` version. -/
theorem namedSchemaForField_congr (conf : Configuration) (field : ProtoField) (b : Bool)
    (s t : NamedSchema) (h : s.value.core.schema = t.value.core.schema) :
    namedSchemaForField conf field s b = namedSchemaForField conf field t b := by
  unfold namedSchemaForField getSchemaVersion
  rw [h]

/-- With `isValueProp` set, the produced property is keyed `"value"`. -/
theorem namedSchemaForField_value_name (conf : Configuration) (field : ProtoField)
    (schema : NamedSchema) (ns : NamedSchema)
    (h : namedSchemaForField conf field schema true = some ns) : ns.name = "value" := by
  unfold namedSchemaForField at h
  cases heq : schemaOrReferenceForField conf field.desc <;> rw [heq] at h
  · exact Option.noConfusion h
  · simp only [Option.some.injEq] at h
    subst h
    rfl

/-- ReadOnly and WriteOnly on the produced node, in closed form: they are
set exactly when the extracted draft version is lexically at least "07" and
the matching behavior annotation is present. -/
theorem namedSchemaForField_ro_wo (conf : Configuration) (field : ProtoField)
    (schema : NamedSchema) (b : Bool) (ns : NamedSchema)
    (h : namedSchemaForField conf field schema b = some ns) :
    ns.value.core.readOnly =
      (if goStrGe (getSchemaVersion schema.value) "07" = true
          ∧ FieldBehavior.outputOnly ∈ field.desc.behaviors then some true else none) ∧
    ns.value.core.writeOnly =
      (if goStrGe (getSchemaVersion schema.value) "07" = true
          ∧ FieldBehavior.inputOnly ∈ field.desc.behaviors then some true else none) := by
  unfold namedSchemaForField at h
  cases heq : schemaOrReferenceForField conf field.desc with
  | none =>
    rw [heq] at h
    exact Option.noConfusion h
  | some fs0 =>
    rw [heq] at h
    obtain ⟨ht, hro, hwo⟩ := schemaOrReferenceForField_core_unset conf _ _ heq
    simp only [Option.some.injEq] at h
    subst h
    simp only [NamedSchema.value_mk, applyFieldBehaviors_eq]
    repeat' split
    all_goals simp_all

/-- A reference-valued node never receives a title: the title field stays
unset whenever the produced node carries a reference. -/
theorem namedSchemaForField_ref_title (conf : Configuration) (field : ProtoField)
    (schema : NamedSchema) (b : Bool) (ns : NamedSchema)
    (h : namedSchemaForField conf field schema b = some ns)
    (href : ns.value.core.ref ≠ none) : ns.value.core.title = none := by
  unfold namedSchemaForField at h
  cases heq : schemaOrReferenceForField conf field.desc with
  | none =>
    rw [heq] at h
    exact Option.noConfusion h
  | some fs0 =>
    rw [heq] at h
    obtain ⟨ht, hro, hwo⟩ := schemaOrReferenceForField_core_unset conf _ _ heq
    simp only [Option.some.injEq] at h
    subst h
    simp only [NamedSchema.value_mk, applyFieldBehaviors_eq] at href ⊢
    repeat' split at href <;> repeat' split
    all_goals simp_all

/-!
Lemmas about underscore-joining, dot-joining and `messageDefinitionName`.
-/

theorem splitUnder_no_under (p : List Char) (h : '_' ∉ p) : splitUnder p = [p] := by
  induction p with
  | nil => rfl
  | cons c cs ih =>
    have hc : ¬c = '_' := fun hcc => h (hcc ▸ List.mem_cons_self c cs)
    have hcs : splitUnder cs = [cs] := ih (fun hm => h (List.mem_cons_of_mem c hm))
    simp [splitUnder, hc, hcs]

theorem splitUnder_append (p tail : List Char) (h : '_' ∉ p) :
    splitUnder (p ++ '_' :: tail) = p :: splitUnder tail := by
  induction p with
  | nil => simp [splitUnder]
  | cons c cs ih =>
    have hc : ¬c = '_' := fun hcc => h (hcc ▸ List.mem_cons_self c cs)
    have hcs := ih (fun hm => h (List.mem_cons_of_mem c hm))
    simp [splitUnder, hc, hcs]

theorem splitUnder_joinUnder (parts : List (List Char)) (hne : parts ≠ [])
    (h : ∀ p ∈ parts, '_' ∉ p) : splitUnder (joinUnder parts) = parts := by
  induction parts with
  | nil => exact absurd rfl hne
  | cons p rest ih =>
    cases rest with
    | nil => exact splitUnder_no_under p (h p (List.mem_cons_self p []))
    | cons q rest2 =>
      have hj : joinUnder (p :: q :: rest2) = p ++ '_' :: joinUnder (q :: rest2) := rfl
      rw [hj, splitUnder_append p _ (h p (List.mem_cons_self p _)),
        ih (by simp) (fun r hr => h r (List.mem_cons_of_mem p hr))]

theorem joinUnder_inj (a b : List (List Char)) (hane : a ≠ []) (hbne : b ≠ [])
    (ha : ∀ p ∈ a, '_' ∉ p) (hb : ∀ p ∈ b, '_' ∉ p)
    (h : joinUnder a = joinUnder b) : a = b := by
  rw [← splitUnder_joinUnder a hane ha, ← splitUnder_joinUnder b hbne hb, h]

theorem map_rep_no_dot (p : List Char) (h : '.' ∉ p) :
    p.map (fun c => if c = '.' then '_' else c) = p := by
  induction p with
  | nil => rfl
  | cons c cs ih =>
    have hc : ¬c = '.' := fun hcc => h (hcc ▸ List.mem_cons_self c cs)
    simp [hc, ih (fun hm => h (List.mem_cons_of_mem c hm))]

theorem map_rep_joinDot (parts : List (List Char)) (h : ∀ p ∈ parts, '.' ∉ p) :
    (joinDot parts).map (fun c => if c = '.' then '_' else c) = joinUnder parts := by
  induction parts with
  | nil => rfl
  | cons p rest ih =>
    cases rest with
    | nil => exact map_rep_no_dot p (h p (List.mem_cons_self p []))
    | cons q rest2 =>
      have hj : joinDot (p :: q :: rest2) = p ++ '.' :: joinDot (q :: rest2) := rfl
      have hu : joinUnder (p :: q :: rest2) = p ++ '_' :: joinUnder (q :: rest2) := rfl
      rw [hj, hu, List.map_append, map_rep_no_dot p (h p (List.mem_cons_self p _))]
      simp [ih (fun r hr => h r (List.mem_cons_of_mem p hr))]

theorem data_dotJoinStr (parts : List String) :
    (dotJoinStr parts).data = joinDot (parts.map String.data) := by
  induction parts with
  | nil => rfl
  | cons p rest ih =>
    cases rest with
    | nil => rfl
    | cons q rest2 =>
      have hd : dotJoinStr (p :: q :: rest2) = p ++ "." ++ dotJoinStr (q :: rest2) := rfl
      have hj : joinDot (p.data :: ((q :: rest2).map String.data)) =
          p.data ++ '.' :: joinDot ((q :: rest2).map String.data) := rfl
      rw [hd, List.map_cons, hj, String.data_append, String.data_append, ← ih]
      simp

theorem joinDot_append_singleton (l : List (List Char)) (x : List Char) (h : l ≠ []) :
    joinDot (l ++ [x]) = joinDot l ++ '.' :: x := by
  induction l with
  | nil => exact absurd rfl h
  | cons p rest ih =>
    cases rest with
    | nil => rfl
    | cons q rest2 =>
      have h1 : joinDot ((p :: q :: rest2) ++ [x]) = p ++ '.' :: joinDot ((q :: rest2) ++ [x]) := rfl
      have h2 : joinDot (p :: q :: rest2) = p ++ '.' :: joinDot (q :: rest2) := rfl
      rw [h1, h2, ih (by simp)]
      simp

/-- On a descriptor with a nonempty package and dot-free path components,
`messageDefinitionName` is the underscore-join of the path beyond the
package.  The package itself never contributes to the name. -/
theorem messageDefinitionName_data (d : MessageDesc) (hpkg : d.pkg ≠ "")
    (h : ∀ s ∈ d.scope ++ [d.name], '.' ∉ s.data) :
    (messageDefinitionName d).data = joinUnder ((d.scope ++ [d.name]).map String.data) := by
  rcases d with ⟨pkg, scope, name⟩
  simp only at h hpkg
  have hname : '.' ∉ name.data := h name (by simp)
  cases scope with
  | nil =>
    have hparent : parentFullName ⟨pkg, [], name⟩ = pkg := by
      simp [parentFullName, hpkg, dotJoinStr]
    simp only [messageDefinitionName, hparent, lt_irrefl, if_false, replaceDotUnderscore]
    simpa using map_rep_no_dot name.data hname
  | cons s0 srest =>
    have hparent : parentFullName ⟨pkg, s0 :: srest, name⟩ = pkg ++ "." ++ dotJoinStr (s0 :: srest) := by
      simp only [parentFullName, hpkg, if_false]
      rfl
    have hpdata : (parentFullName ⟨pkg, s0 :: srest, name⟩).data
        = pkg.data ++ '.' :: (dotJoinStr (s0 :: srest)).data := by
      rw [hparent, String.data_append, String.data_append]
      simp
    have hlen : goLen pkg < goLen (parentFullName ⟨pkg, s0 :: srest, name⟩) := by
      simp only [goLen, hpdata, List.length_append, List.length_cons]
      omega
    have hdrop : (goDrop (parentFullName ⟨pkg, s0 :: srest, name⟩) (goLen pkg + 1)).data
        = (dotJoinStr (s0 :: srest)).data := by
      simp only [goDrop, goLen, hpdata]
      rw [show pkg.data.length + 1 = (pkg.data ++ ['.']).length by simp]
      rw [show pkg.data ++ '.' :: (dotJoinStr (s0 :: srest)).data
            = (pkg.data ++ ['.']) ++ (dotJoinStr (s0 :: srest)).data by simp]
      exact List.drop_left _ _
  
    simp only [messageDefinitionName, hlen, if_true, replaceDotUnderscore]
    rw [String.data_append, String.data_append, hdrop]
    have hT : (dotJoinStr (s0 :: srest)).data ++ ".".data ++ name.data
        = joinDot (((s0 :: srest) ++ [name]).map String.data) := by
      rw [show (((s0 :: srest) ++ [name]).map String.data)
            = ((s0 :: srest).map String.data) ++ [name.data] by simp]
      rw [joinDot_append_singleton _ _ (by simp), ← data_dotJoinStr]
      simp
    rw [hT, map_rep_joinDot]
    intro p hp
    simp only [List.map_append, List.map_cons, List.map_nil, List.mem_append,
      List.mem_cons, List.not_mem_nil, or_false] at hp
    rcases hp with hp | hp
    · rcases hp with hp | hp
      · subst hp
        exact h s0 (List.mem_cons_self s0 _)
      · obtain ⟨t, ht, rfl⟩ := List.mem_map.mp hp
        exact h t (List.mem_cons_of_mem s0 (List.mem_append_left _ ht))
    · subst hp
      exact hname

/-!
Claim C1.
-/

/-- C1, counterexample: the two distinct messages `pkg.A_B` (top level) and
`pkg.A.B` (nested in `pkg.A`) receive the same document name `A_B`, so the
document-name function is not injective on distinct fully-qualified paths. -/
theorem C1_counterexample_name_collision :
    (⟨"pkg", [], "A_B"⟩ : MessageDesc) ≠ ⟨"pkg", ["A"], "B"⟩ ∧
    MessageDesc.fullName ⟨"pkg", [], "A_B"⟩ ≠ MessageDesc.fullName ⟨"pkg", ["A"], "B"⟩ ∧
    messageDefinitionName ⟨"pkg", [], "A_B"⟩ = messageDefinitionName ⟨"pkg", ["A"], "B"⟩ :=
  ⟨by decide, by decide, by decide⟩

/-- C1 (amended): the document name is a pure function of the message's
path beyond the package (enclosing-scope components joined with the name,
dots replaced by underscores; the package itself does not contribute), and
it is injective for messages of one nonempty package whose path components
are nonempty and free of underscores. -/
theorem C1_messageDefinitionName_injective (a b : MessageDesc)
    (hpkg : a.pkg = b.pkg) (hpkgne : a.pkg ≠ "")
    (haI : ∀ s ∈ a.scope ++ [a.name], plainIdent s)
    (hbI : ∀ s ∈ b.scope ++ [b.name], plainIdent s)
    (hne : a ≠ b) :
    messageDefinitionName a ≠ messageDefinitionName b := by
  intro hcontra
  apply hne
  have hdata := congrArg String.data hcontra
  rw [messageDefinitionName_data a hpkgne
        (fun s hs hm => ((haI s hs).2 '.' hm).1 rfl),
      messageDefinitionName_data b (hpkg ▸ hpkgne)
        (fun s hs hm => ((hbI s hs).2 '.' hm).1 rfl)] at hdata
  have hunder : ∀ (l : List String), (∀ s ∈ l, plainIdent s) →
      ∀ p ∈ l.map String.data, '_' ∉ p := by
    intro l hl p hp hm
    obtain ⟨t, ht, rfl⟩ := List.mem_map.mp hp
    exact ((hl t ht).2 '_' hm).2 rfl
  have hlists := joinUnder_inj _ _ (by simp) (by simp)
    (hunder _ haI) (hunder _ hbI) hdata
  have hpaths : a.scope ++ [a.name] = b.scope ++ [b.name] := by
    have hinj : Function.Injective String.data := fun x y hxy => String.ext hxy
    exact (List.map_injective_iff.mpr hinj) hlists
  obtain ⟨hscope, hname⟩ := List.append_inj' hpaths rfl
  have hname2 : a.name = b.name := by simpa using hname
  obtain ⟨pa, sa, na⟩ := a
  obtain ⟨pb, sb, nb⟩ := b
  simp only at hpkg hscope hname2
  simp [hpkg, hscope, hname2]

/-- C1, witness for the amended theorem at two concrete nested messages of
package pkg. -/
theorem C1_injective_witness :
    messageDefinitionName ⟨"pkg", [], "Book"⟩ ≠ messageDefinitionName ⟨"pkg", ["Book"], "Author"⟩ :=
  C1_messageDefinitionName_injective ⟨"pkg", [], "Book"⟩ ⟨"pkg", ["Book"], "Author"⟩
    rfl (by decide) (by decide) (by decide) (by decide)

/-!
Preservation lemmas: the oneof expander and the plain-field loop never
change a document's name or its non-recursive keywords, and only append to
its properties and definitions.
-/

theorem oneofMemberStep_preserves (conf : Configuration) (acc : List Schema × NamedSchema)
    (f : ProtoField) :
    (oneofMemberStep conf acc f).2.name = acc.2.name ∧
    (oneofMemberStep conf acc f).2.value.core = acc.2.value.core ∧
    (oneofMemberStep conf acc f).2.value.properties = acc.2.value.properties := by
  unfold oneofMemberStep
  cases namedSchemaForField conf f acc.2 true <;> simp [addDefinition]

theorem memberFold_preserves (conf : Configuration) (fs : List ProtoField)
    (acc : List Schema × NamedSchema) :
    (fs.foldl (oneofMemberStep conf) acc).2.name = acc.2.name ∧
    (fs.foldl (oneofMemberStep conf) acc).2.value.core = acc.2.value.core ∧
    (fs.foldl (oneofMemberStep conf) acc).2.value.properties = acc.2.value.properties := by
  induction fs generalizing acc with
  | nil => exact ⟨rfl, rfl, rfl⟩
  | cons f fs ih =>
    have h1 := oneofMemberStep_preserves conf acc f
    have h2 := ih (oneofMemberStep conf acc f)
    simp only [List.foldl_cons]
    exact ⟨h2.1.trans h1.1, h2.2.1.trans h1.2.1, h2.2.2.trans h1.2.2⟩

theorem addOneofGroup_preserves (conf : Configuration) (s : NamedSchema) (g : Oneof) :
    (addOneofGroup conf s g).name = s.name ∧
    (addOneofGroup conf s g).value.core = s.value.core := by
  have h := memberFold_preserves conf g.fields
    ([.ofCore { type := some { string := some typeNull } }], s)
  unfold addOneofGroup appendProperty
  exact ⟨h.1, by simp [h.2.1]⟩

theorem addOneofFields_preserves (conf : Configuration) (gs : List Oneof) (s : NamedSchema) :
    (addOneofFieldsToSchema conf gs s).name = s.name ∧
    (addOneofFieldsToSchema conf gs s).value.core = s.value.core := by
  induction gs generalizing s with
  | nil => exact ⟨rfl, rfl⟩
  | cons g gs ih =>
    have h1 := addOneofGroup_preserves conf s g
    have h2 := ih (addOneofGroup conf s g)
    simp only [addOneofFieldsToSchema, List.foldl_cons] at h2 ⊢
    exact ⟨h2.1.trans h1.1, h2.2.trans h1.2⟩

theorem plainFieldStep_preserves (conf : Configuration) (s : NamedSchema) (f : ProtoField) :
    (plainFieldStep conf s f).name = s.name ∧
    (plainFieldStep conf s f).value.core = s.value.core := by
  unfold plainFieldStep
  split
  · exact ⟨rfl, rfl⟩
  · cases namedSchemaForField conf f s false <;> simp [appendProperty]

theorem plainFold_preserves (conf : Configuration) (fs : List ProtoField) (s : NamedSchema) :
    (fs.foldl (plainFieldStep conf) s).name = s.name ∧
    (fs.foldl (plainFieldStep conf) s).value.core = s.value.core := by
  induction fs generalizing s with
  | nil => exact ⟨rfl, rfl⟩
  | cons f fs ih =>
    have h1 := plainFieldStep_preserves conf s f
    have h2 := ih (plainFieldStep conf s f)
    simp only [List.foldl_cons]
    exact ⟨h2.1.trans h1.1, h2.2.trans h1.2⟩

theorem setupSchemaForMessage_facts (conf : Configuration) (n c : String) :
    (setupSchemaForMessage conf n c).name = n ∧
    (setupSchemaForMessage conf n c).value.core.schema = some conf.version ∧
    (setupSchemaForMessage conf n c).value.properties = some [] ∧
    (setupSchemaForMessage conf n c).value.definitions = none := by
  simp only [setupSchemaForMessage]
  split <;> simp

/-- A message's own document carries the document name computed by
`messageDefinitionName`. -/
theorem messageDocFor_name (conf : Configuration) (m : Message) :
    (messageDocFor conf m).name = messageDefinitionName m.desc := by
  unfold messageDocFor
  rw [(plainFold_preserves conf m.fields _).1, (addOneofFields_preserves conf m.oneofs _).1,
    (setupSchemaForMessage_facts conf _ _).1]

/-- One step of the builder: nested documents first, then the message's own
document unless it is a synthetic map entry. -/
theorem buildSchemas_cons (conf : Configuration) (m : Message) (rest : List Message) :
    buildSchemasFromMessages conf (m :: rest) =
      (buildSchemasFromMessages conf m.messages
        ++ if m.isMapEntry then [] else [messageDocFor conf m])
      ++ buildSchemasFromMessages conf rest := by
  obtain ⟨desc, e, c, msgs, os, fs⟩ := m
  simp only [buildSchemasFromMessages, messageDocFor, Message.messages, Message.isMapEntry,
    Message.desc, Message.leadingComment, Message.oneofs, Message.fields]
  cases e <;> simp

/-!
Claim C2.
-/

/-- C2, counterexample: under the default json naming, a field typed as the
message `pkg.book` gets the reference `Book.json`, while building `book`
itself produces a document named `book` (file `book.json`): the reference
does not equal the produced document name plus ".json". -/
theorem C2_counterexample_ref_mismatch :
    (schemaOrReferenceForType confJson ⟨"pkg", [], "book"⟩).map (fun s => s.core.ref)
      = some (some "Book.json") ∧
    (buildSchemasFromMessages confJson [bookMessage]).map NamedSchema.name = ["book"] ∧
    ("Book.json" : String) ≠ "book" ++ ".json" :=
  ⟨rfl, by
    rw [buildSchemas_cons]
    simp only [bookMessage, Message.messages, Message.isMapEntry, Bool.false_eq_true, if_false,
      buildSchemasFromMessages, List.append_nil, List.nil_append, List.map_cons, List.map_nil]
    rw [messageDocFor_name]
    decide, by decide⟩

/-- C2 (amended): the reference emitted for a field of non-well-known
message type M is `formatMessageNameString` applied to the document name
that building M independently produces, plus ".json"; under the "proto"
naming convention the formatting is the identity, so reference and document
name coincide exactly as the original claim states. -/
theorem C2_reference_formats_document_name (conf : Configuration) (M : MessageDesc)
    (hwk : ("." ++ M.pkg ++ "." ++ M.name) ∉ wellKnownTypeNames)
    (comment : String) (nested : List Message) (oneofs : List Oneof)
    (fields : List ProtoField) :
    (schemaOrReferenceForType conf M).map (fun s => s.core.ref)
      = some (some (formatMessageNameString conf (messageDefinitionName M) ++ ".json")) ∧
    buildSchemasFromMessages conf [Message.mk M false comment nested oneofs fields]
      = buildSchemasFromMessages conf nested
        ++ [messageDocFor conf (Message.mk M false comment nested oneofs fields)] ∧
    (messageDocFor conf (Message.mk M false comment nested oneofs fields)).name
      = messageDefinitionName M ∧
    (conf.naming = "proto" →
      formatMessageNameString conf (messageDefinitionName M) = messageDefinitionName M) := by
  simp only [wellKnownTypeNames, List.mem_cons, List.not_mem_nil, or_false, not_or] at hwk
  obtain ⟨h1, h2, h3, h4, h5, h6⟩ := hwk
  refine ⟨?_, ?_, ?_, ?_⟩
  · simp only [schemaOrReferenceForType, h1, h2, h3, h4, h5, h6, if_false]
    rfl
  · rw [buildSchemas_cons]
    simp [Message.isMapEntry, Message.messages, buildSchemasFromMessages]
  · exact messageDocFor_name conf _
  · intro hp
    simp [formatMessageNameString, hp]

/-- C2, witness: with proto naming, the reference for `pkg.book` is
`book.json` and the document built for `pkg.book` is named `book`. -/
theorem C2_reference_witness :
    (schemaOrReferenceForType confProto ⟨"pkg", [], "book"⟩).map (fun s => s.core.ref)
      = some (some (formatMessageNameString confProto (messageDefinitionName ⟨"pkg", [], "book"⟩) ++ ".json")) ∧
    formatMessageNameString confProto (messageDefinitionName ⟨"pkg", [], "book"⟩)
      = messageDefinitionName ⟨"pkg", [], "book"⟩ :=
  ⟨(C2_reference_formats_document_name confProto ⟨"pkg", [], "book"⟩ (by decide) "" [] [] []).1,
   (C2_reference_formats_document_name confProto ⟨"pkg", [], "book"⟩ (by decide) "" [] [] []).2.2.2 rfl⟩

/-!
Claim C3.
-/

/-- C3, counterexample: a reference-valued field node still receives a
description when the field has a non-empty leading comment, so a node
carrying a reference does not carry "neither a title nor a description". -/
theorem C3_counterexample_description_on_ref :
    namedSchemaForField confJson commentedMessageField bookSetup false
      = some commentedFieldSchema ∧
    commentedFieldSchema.value.core.ref = some "Author.json" ∧
    commentedFieldSchema.value.core.description = some "The author of the book." :=
  ⟨rfl, rfl, rfl⟩

/-- C3 (amended): a field node that carries a reference never carries a
title; it may still carry a description, which the source attaches
regardless of the reference. -/
theorem C3_ref_node_has_no_title (conf : Configuration) (field : ProtoField)
    (schema : NamedSchema) (b : Bool) (ns : NamedSchema)
    (h : namedSchemaForField conf field schema b = some ns)
    (href : ns.value.core.ref ≠ none) : ns.value.core.title = none :=
  namedSchemaForField_ref_title conf field schema b ns h href

/-- C3, witness: the reference-valued node built for the commented message
field indeed has no title. -/
theorem C3_ref_title_witness : commentedFieldSchema.value.core.title = none :=
  C3_ref_node_has_no_title confJson commentedMessageField bookSetup false
    commentedFieldSchema rfl (by decide)

/-!
Claim C6.
-/

/-- C6: on every produced field node, readOnly is populated (necessarily
with true) if and only if the draft version string extracted from the
configured `$schema` value is lexically at least "07" and the field carries
the OUTPUT_ONLY behavior annotation; writeOnly behaves the same way with
INPUT_ONLY. -/
theorem C6_readOnly_writeOnly_iff (conf : Configuration) (field : ProtoField)
    (schema : NamedSchema) (b : Bool) (ns : NamedSchema)
    (h : namedSchemaForField conf field schema b = some ns) :
    (ns.value.core.readOnly = some true ↔
      goStrGe (getSchemaVersion schema.value) "07" = true ∧
        FieldBehavior.outputOnly ∈ field.desc.behaviors) ∧
    (ns.value.core.readOnly = none ↔
      ¬(goStrGe (getSchemaVersion schema.value) "07" = true ∧
        FieldBehavior.outputOnly ∈ field.desc.behaviors)) ∧
    (ns.value.core.writeOnly = some true ↔
      goStrGe (getSchemaVersion schema.value) "07" = true ∧
        FieldBehavior.inputOnly ∈ field.desc.behaviors) ∧
    (ns.value.core.writeOnly = none ↔
      ¬(goStrGe (getSchemaVersion schema.value) "07" = true ∧
        FieldBehavior.inputOnly ∈ field.desc.behaviors)) := by
  obtain ⟨h1, h2⟩ := namedSchemaForField_ro_wo conf field schema b ns h
  rw [h1, h2]
  by_cases hro : goStrGe (getSchemaVersion schema.value) "07" = true ∧
      FieldBehavior.outputOnly ∈ field.desc.behaviors <;>
    by_cases hwo : goStrGe (getSchemaVersion schema.value) "07" = true ∧
        FieldBehavior.inputOnly ∈ field.desc.behaviors <;>
      simp [hro, hwo]

/-- C6, witness: under the draft-07 configuration, the OUTPUT_ONLY field
gets readOnly = true and no writeOnly. -/
theorem C6_witness :
    outputOnlyFieldSchema.value.core.readOnly = some true ∧
    outputOnlyFieldSchema.value.core.writeOnly = none := by
  have h := C6_readOnly_writeOnly_iff confJson outputOnlyField bookSetup false
    outputOnlyFieldSchema rfl
  exact ⟨h.1.mpr (by decide), h.2.2.2.mpr (by decide)⟩

/-!
Claim C7.
-/

/-- C7: an enum-typed (singular, non-map) field maps, in string mode, to a
string-typed node whose enumeration lists every declared value name in
declaration order and whose default is the first declared name; in any
other mode (the "integer" mode) to an integer-typed node with default 0.
Both carry format "enum". -/
theorem C7_enum_field_mapping (conf : Configuration) (n j : String) (bs : List FieldBehavior)
    (values : List String) (v : String) (rest : List String) (hv : values = v :: rest) :
    (conf.enumType = some "string" →
      schemaOrReferenceForField conf (.mk n j (.enumKind values) none false bs)
        = some (.ofCore { format := some formatEnum,
                          type := some { string := some typeString },
                          enumeration := some (values.map (fun nm => { string := some nm })),
                          default := some { stringValue := some v } })) ∧
    (conf.enumType ≠ some "string" →
      schemaOrReferenceForField conf (.mk n j (.enumKind values) none false bs)
        = some (.ofCore { format := some formatEnum,
                          type := some { string := some typeInteger },
                          default := some { int64Value := some emptyInt64 } })) := by
  constructor <;> intro hmode <;>
    simp [schemaOrReferenceForField, typeString, hmode, hv]

/-- C7, witness at a concrete two-value enum in string mode. -/
theorem C7_enum_witness :
    (confEnumString.enumType = some "string" →
      schemaOrReferenceForField confEnumString
          (.mk "state" "state" (.enumKind ["ACTIVE", "CLOSED"]) none false [])
        = some (.ofCore { format := some formatEnum,
                          type := some { string := some typeString },
                          enumeration := some (["ACTIVE", "CLOSED"].map (fun nm => { string := some nm })),
                          default := some { stringValue := some "ACTIVE" } })) ∧
    (confEnumString.enumType ≠ some "string" →
      schemaOrReferenceForField confEnumString
          (.mk "state" "state" (.enumKind ["ACTIVE", "CLOSED"]) none false [])
        = some (.ofCore { format := some formatEnum,
                          type := some { string := some typeInteger },
                          default := some { int64Value := some emptyInt64 } })) :=
  C7_enum_field_mapping confEnumString "state" "state" [] ["ACTIVE", "CLOSED"] "ACTIVE" ["CLOSED"] rfl

/-!
Claim C8.
-/

/-- C8, counterexample: a repeated field of the unrecognized group kind is
not omitted: the Type Mapper returns an array node (with an empty item
schema), and the built document for a message holding only that field has
one property, not zero. -/
theorem C8_counterexample_repeated_group :
    (schemaOrReferenceForField confJson groupFieldRepeated).isSome = true ∧
    (buildSchemasFromMessages confJson [legacyMessage]).map
        (fun d => (d.value.properties).map List.length) = [some 1] :=
  ⟨rfl, by
    rw [buildSchemas_cons]
    simp only [legacyMessage, Message.messages, Message.isMapEntry, Bool.false_eq_true, if_false,
      buildSchemasFromMessages, List.append_nil, List.nil_append, List.map_cons, List.map_nil]
    rfl⟩

/-- C8 (amended): for a field of the one unrecognized kind the switch's
default branch yields no base node; a singular such field is silently
omitted from the owning document and translation continues, but a repeated
such field is wrapped into an array node with an empty item schema and is
appended to the document after all. -/
theorem C8_unrecognized_kind (conf : Configuration) (n j : String) (bs : List FieldBehavior)
    (msg : MessageDesc) (s : NamedSchema) (field fieldR : ProtoField)
    (hdesc : field.desc = .mk n j (.groupKind msg) none false bs)
    (hdescR : fieldR.desc = .mk n j (.groupKind msg) none true bs)
    (hR : fieldR.inOneof = false) :
    schemaOrReferenceForField conf (.mk n j (.groupKind msg) none false bs) = none ∧
    plainFieldStep conf s field = s ∧
    schemaOrReferenceForField conf (.mk n j (.groupKind msg) none true bs)
      = some (.mk { type := some { string := some "array" },
                    default := some { arrayValue := some emptyArray } }
          none none (some none) none none) ∧
    (∃ ns, namedSchemaForField conf fieldR s false = some ns ∧
      plainFieldStep conf s fieldR = appendProperty s ns) := by
  have hnone : schemaOrReferenceForField conf (.mk n j (.groupKind msg) none false bs) = none := by
    simp [schemaOrReferenceForField]
  have hsome : schemaOrReferenceForField conf (.mk n j (.groupKind msg) none true bs)
      = some (.mk { type := some { string := some "array" },
                    default := some { arrayValue := some emptyArray } }
          none none (some none) none none) := by
    simp [schemaOrReferenceForField]
  refine ⟨hnone, ?_, hsome, ?_⟩
  · have hns : namedSchemaForField conf field s false = none := by
      have := namedSchemaForField_isSome conf field s false
      rw [hdesc, hnone] at this
      cases hcase : namedSchemaForField conf field s false
      · rfl
      · rw [hcase] at this
        exact absurd this (by simp)
    unfold plainFieldStep
    split
    · rfl
    · rw [hns]
  · have hns : (namedSchemaForField conf fieldR s false).isSome = true := by
      rw [namedSchemaForField_isSome, hdescR, hsome]
      rfl
    obtain ⟨ns, hnseq⟩ := Option.isSome_iff_exists.mp hns
    refine ⟨ns, hnseq, ?_⟩
    unfold plainFieldStep
    rw [if_neg (by simp [hR]), hnseq]

/-- C8, witness: the singular group-kind field maps to nothing and is
skipped by the plain-field loop. -/
theorem C8_witness :
    schemaOrReferenceForField confJson groupFieldSingular = none ∧
    plainFieldStep confJson bookSetup groupProtoFieldSingular = bookSetup :=
  ⟨(C8_unrecognized_kind confJson "legacy" "legacy" [] ⟨"pkg", [], "Legacy"⟩ bookSetup
      groupProtoFieldSingular groupProtoFieldRepeated rfl rfl rfl).1,
   (C8_unrecognized_kind confJson "legacy" "legacy" [] ⟨"pkg", [], "Legacy"⟩ bookSetup
      groupProtoFieldSingular groupProtoFieldRepeated rfl rfl rfl).2.1⟩

/-!
Closed forms of the oneof expander and the plain-field loop.
-/

theorem memberDefFor_congr (conf : Configuration) (s t : NamedSchema) (f : ProtoField)
    (hn : s.name = t.name) (hv : s.value.core.schema = t.value.core.schema) :
    memberDefFor conf s f = memberDefFor conf t f := by
  unfold memberDefFor
  rw [hn, namedSchemaForField_congr conf f true s t hv]

theorem keptDefs_congr (conf : Configuration) (s t : NamedSchema) (fs : List ProtoField)
    (hn : s.name = t.name) (hv : s.value.core.schema = t.value.core.schema) :
    keptDefs conf s fs = keptDefs conf t fs := by
  unfold keptDefs
  congr 1
  funext f
  exact memberDefFor_congr conf s t f hn hv

theorem allKeptDefs_congr (conf : Configuration) (s t : NamedSchema) (gs : List Oneof)
    (hn : s.name = t.name) (hv : s.value.core.schema = t.value.core.schema) :
    allKeptDefs conf s gs = allKeptDefs conf t gs := by
  unfold allKeptDefs
  congr 1
  funext g
  exact keptDefs_congr conf s t g.fields hn hv

theorem plainPropsFor_congr (conf : Configuration) (s t : NamedSchema) (fs : List ProtoField)
    (hv : s.value.core.schema = t.value.core.schema) :
    plainPropsFor conf s fs = plainPropsFor conf t fs := by
  unfold plainPropsFor
  congr 1
  funext f
  rw [namedSchemaForField_congr conf f false s t hv]

theorem appendDefs_cons (o : Option (List NamedSchema)) (d : NamedSchema)
    (ds : List NamedSchema) :
    appendDefs (some (o.getD [] ++ [d])) ds = appendDefs o (d :: ds) := by
  cases ds <;> simp [appendDefs]

theorem appendDefs_append (o : Option (List NamedSchema)) (ds es : List NamedSchema) :
    appendDefs (appendDefs o ds) es = appendDefs o (ds ++ es) := by
  cases ds with
  | nil => rfl
  | cons d ds2 => cases es <;> simp [appendDefs]

/-- Closed form of the member loop: the union list gains one local
reference per kept member and the document registers one definition per
kept member; nothing else changes. -/
theorem memberFold_eq (conf : Configuration) (fs : List ProtoField)
    (l : List Schema) (s : NamedSchema) :
    fs.foldl (oneofMemberStep conf) (l, s)
      = (l ++ keptRefs conf s.name fs,
         .mk s.name (s.value.withDefinitions
           (appendDefs s.value.definitions (keptDefs conf s fs)))) := by
  induction fs generalizing l s with
  | nil =>
    simp only [List.foldl_nil, keptRefs, keptDefs, List.filter_nil, List.map_nil,
      appendDefs, List.append_nil]
    rw [Schema.withDefinitions_self, NamedSchema.eta]
  | cons f fs ih =>
    simp only [List.foldl_cons]
    cases heq : namedSchemaForField conf f s true with
    | none =>
      have hk : memberKept conf f = false := by
        have h1 := namedSchemaForField_isSome conf f s true
        rw [heq] at h1
        rw [memberKept, ← h1]
        rfl
      have hstep : oneofMemberStep conf (l, s) f = (l, s) := by
        unfold oneofMemberStep
        rw [heq]
      rw [hstep, ih]
      simp [keptRefs, keptDefs, hk]
    | some actual =>
      have hk : memberKept conf f = true := by
        have h1 := namedSchemaForField_isSome conf f s true
        rw [heq] at h1
        rw [memberKept, ← h1]
        rfl
      have hstep : oneofMemberStep conf (l, s) f
          = (l ++ [localRefSchema ("#/definitions/" ++ (s.name ++ "_" ++ f.goName))],
             addDefinition s (memberDefFor conf s f)) := by
        simp [oneofMemberStep, memberDefFor, localRefSchema, heq]
      rw [hstep, ih]
      have hname : (addDefinition s (memberDefFor conf s f)).name = s.name := rfl
      have hcore : (addDefinition s (memberDefFor conf s f)).value.core.schema
          = s.value.core.schema := by
        simp [addDefinition]
      rw [hname, keptDefs_congr conf (addDefinition s (memberDefFor conf s f)) s fs hname hcore]
      simp [keptRefs, keptDefs, hk, addDefinition, appendDefs_cons]

/-- Closed form of one oneof group: the document gains exactly one
property (the discriminated union) and the kept members' definitions. -/
theorem addOneofGroup_eq (conf : Configuration) (s : NamedSchema) (g : Oneof) :
    addOneofGroup conf s g
      = .mk s.name
          ((s.value.withDefinitions
              (appendDefs s.value.definitions (keptDefs conf s g.fields))).withProperties
            (some ((s.value.properties).getD [] ++ [groupPropFor conf s.name g]))) := by
  simp only [addOneofGroup]
  have hnull : (Schema.ofCore { type := some { string := some typeNull } }) = nullTypeSchema := rfl
  rw [hnull, memberFold_eq conf g.fields [nullTypeSchema] s]
  unfold appendProperty groupPropFor
  simp

/-- Closed form of the oneof expander over all groups of a message. -/
theorem addOneofFields_eq (conf : Configuration) (gs : List Oneof) (s : NamedSchema)
    (ps : List NamedSchema) (hp : s.value.properties = some ps) :
    addOneofFieldsToSchema conf gs s
      = .mk s.name
          ((s.value.withDefinitions
              (appendDefs s.value.definitions (allKeptDefs conf s gs))).withProperties
            (some (ps ++ groupPropsFor conf s.name gs))) := by
  induction gs generalizing s ps with
  | nil =>
    simp only [addOneofFieldsToSchema, List.foldl_nil, allKeptDefs, List.flatMap_nil,
      appendDefs, groupPropsFor, List.map_nil, List.append_nil]
    rw [Schema.withDefinitions_self, ← hp, Schema.withProperties_self, NamedSchema.eta]
  | cons g gs ih =>
    have hstep : addOneofFieldsToSchema conf (g :: gs) s
        = addOneofFieldsToSchema conf gs (addOneofGroup conf s g) := rfl
    have hp1 : (addOneofGroup conf s g).value.properties
        = some (ps ++ [groupPropFor conf s.name g]) := by
      rw [addOneofGroup_eq]
      simp [hp]
    rw [hstep, ih (addOneofGroup conf s g) (ps ++ [groupPropFor conf s.name g]) hp1]
    have hname : (addOneofGroup conf s g).name = s.name := by
      rw [addOneofGroup_eq]
      rfl
    have hcore : (addOneofGroup conf s g).value.core.schema = s.value.core.schema := by
      rw [addOneofGroup_eq]
      simp
    rw [hname, allKeptDefs_congr conf (addOneofGroup conf s g) s gs hname hcore]
    have hdefs : (addOneofGroup conf s g).value.definitions
        = appendDefs s.value.definitions (keptDefs conf s g.fields) := by
      rw [addOneofGroup_eq]
      simp
    rw [hdefs, appendDefs_append]
    have hval : (addOneofGroup conf s g).value
        = (s.value.withDefinitions
            (appendDefs s.value.definitions (keptDefs conf s g.fields))).withProperties
          (some (ps ++ [groupPropFor conf s.name g])) := by
      rw [addOneofGroup_eq]
      simp [hp]
    rw [hval]
    have hall : allKeptDefs conf s (g :: gs)
        = keptDefs conf s g.fields ++ allKeptDefs conf s gs := by
      simp [allKeptDefs]
    have hgp : groupPropsFor conf s.name (g :: gs)
        = groupPropFor conf s.name g :: groupPropsFor conf s.name gs := rfl
    rw [hall, hgp]
    cases hsv : s.value
    simp [Schema.withDefinitions, Schema.withProperties]

/-- Closed form of the plain-field loop: the document gains one property
per non-oneof field with a non-empty mapped node, in field order. -/
theorem plainFold_eq (conf : Configuration) (fs : List ProtoField) (s : NamedSchema)
    (ps : List NamedSchema) (hp : s.value.properties = some ps) :
    fs.foldl (plainFieldStep conf) s
      = .mk s.name (s.value.withProperties (some (ps ++ plainPropsFor conf s fs))) := by
  induction fs generalizing s ps with
  | nil =>
    simp only [List.foldl_nil, plainPropsFor, List.filterMap_nil, List.append_nil]
    rw [← hp, Schema.withProperties_self, NamedSchema.eta]
  | cons f fs ih =>
    simp only [List.foldl_cons]
    by_cases ho : f.inOneof
    · have hstep : plainFieldStep conf s f = s := by
        unfold plainFieldStep
        rw [if_pos ho]
      rw [hstep, ih s ps hp]
      simp [plainPropsFor, ho]
    · cases heq : namedSchemaForField conf f s false with
      | none =>
        have hstep : plainFieldStep conf s f = s := by
          unfold plainFieldStep
          rw [if_neg ho, heq]
        rw [hstep, ih s ps hp]
        simp [plainPropsFor, ho, heq]
      | some ns =>
        have hstep : plainFieldStep conf s f = appendProperty s ns := by
          unfold plainFieldStep
          rw [if_neg ho, heq]
        have hp1 : (appendProperty s ns).value.properties = some (ps ++ [ns]) := by
          simp [appendProperty, hp]
        rw [hstep, ih (appendProperty s ns) (ps ++ [ns]) hp1]
        have hcore : (appendProperty s ns).value.core.schema = s.value.core.schema := by
          simp [appendProperty]
        rw [show (appendProperty s ns).name = s.name from rfl,
          plainPropsFor_congr conf (appendProperty s ns) s fs hcore]
        have hppf : plainPropsFor conf s (f :: fs) = ns :: plainPropsFor conf s fs := by
          simp [plainPropsFor, ho, heq]
        rw [hppf]
        cases hsv : s.value
        simp [appendProperty, Schema.withProperties, hsv]

/-- The properties of a message's own document: all oneof-derived
properties first, then all plain-field properties, each in declaration
order. -/
theorem messageDocFor_properties (conf : Configuration) (m : Message) :
    (messageDocFor conf m).value.properties
      = some (groupPropsFor conf (messageDefinitionName m.desc) m.oneofs
          ++ plainPropsFor conf
              (setupSchemaForMessage conf (messageDefinitionName m.desc) m.leadingComment)
              m.fields) := by
  obtain ⟨hn0, hv0, hp0, hd0⟩ :=
    setupSchemaForMessage_facts conf (messageDefinitionName m.desc) m.leadingComment
  simp only [messageDocFor]
  set s0 := setupSchemaForMessage conf (messageDefinitionName m.desc) m.leadingComment with hs0
  rw [addOneofFields_eq conf m.oneofs s0 [] hp0]
  set P := groupPropsFor conf s0.name m.oneofs with hP
  set D := appendDefs s0.value.definitions (allKeptDefs conf s0 m.oneofs) with hD
  set s1 := NamedSchema.mk s0.name ((s0.value.withDefinitions D).withProperties (some ([] ++ P)))
    with hs1
  have hp1 : s1.value.properties = some ([] ++ P) := by
    rw [hs1]
    simp
  rw [plainFold_eq conf m.fields s1 ([] ++ P) hp1]
  have hcong : plainPropsFor conf s1 m.fields = plainPropsFor conf s0 m.fields := by
    apply plainPropsFor_congr
    rw [hs1]
    simp
  simp only [NamedSchema.value_mk, Schema.properties_withProperties, List.nil_append,
    hcong, hP, hn0]

/-!
Claim C9.
-/

/-- C9: the builder returns documents in depth-first order — for every
message, the documents of its nested messages precede its own document —
and within each document every oneof-derived property precedes every
plain-field property. -/
theorem C9_depth_first_order (conf : Configuration) :
    (∀ msgs : List Message,
      buildSchemasFromMessages conf msgs
        = msgs.flatMap (fun m =>
            buildSchemasFromMessages conf m.messages
              ++ if m.isMapEntry then [] else [messageDocFor conf m])) ∧
    (∀ m : Message,
      (messageDocFor conf m).value.properties
        = some (groupPropsFor conf (messageDefinitionName m.desc) m.oneofs
            ++ plainPropsFor conf
                (setupSchemaForMessage conf (messageDefinitionName m.desc) m.leadingComment)
                m.fields)) := by
  constructor
  · intro msgs
    induction msgs with
    | nil => simp [buildSchemasFromMessages]
    | cons m rest ih => rw [buildSchemas_cons, ih, List.flatMap_cons]
  · exact messageDocFor_properties conf

/-!
Claim C4.
-/

/-- C4, counterexample: a oneof group with one member field whose mapped
shape is empty yields a union list with one alternative (the null type
alone), not the claimed N+1 = 2. -/
theorem C4_counterexample_skipped_member :
    emptyOnlyOneof.fields.length = 1 ∧
    ((addOneofGroup confJson bookSetup emptyOnlyOneof).value.properties).map
        (fun l => l.map (fun p => (p.value.oneOf).map List.length))
      = some [some 1] ∧
    (1 : Nat) ≠ emptyOnlyOneof.fields.length + 1 :=
  ⟨rfl, rfl, by decide⟩

/-- C4 (amended): a oneof group adds exactly one property to the owning
document; its union list is the JSON null type followed by one local
reference per kept member (a member is kept exactly when its mapped shape
is non-empty), so it has K+1 alternatives where K is the number of kept
members; and each registered member definition has exactly two properties,
"kind" (a single-literal enumeration of the member's declared name) and
"value". -/
theorem C4_oneof_union_shape (conf : Configuration) (s : NamedSchema) (ps : List NamedSchema)
    (hp : s.value.properties = some ps) (g : Oneof) :
    (addOneofGroup conf s g).value.properties
      = some (ps ++ [groupPropFor conf s.name g]) ∧
    (groupPropFor conf s.name g).value.oneOf
      = some (nullTypeSchema :: keptRefs conf s.name g.fields) ∧
    (keptRefs conf s.name g.fields).length
      = (g.fields.filter (memberKept conf)).length ∧
    (addOneofGroup conf s g).value.definitions
      = appendDefs s.value.definitions (keptDefs conf s g.fields) ∧
    (∀ f ∈ g.fields.filter (memberKept conf), ∃ vp,
      (memberDefFor conf s f).value.properties
        = some [buildKindProperty f.desc.name, vp] ∧
      (buildKindProperty f.desc.name).name = "kind" ∧
      (buildKindProperty f.desc.name).value.core.enumeration
        = some [{ string := some f.desc.name }] ∧
      (buildKindProperty f.desc.name).value.core.default
        = some { stringValue := some f.desc.name } ∧
      vp.name = "value") := by
  refine ⟨?_, rfl, by simp [keptRefs], ?_, ?_⟩
  · rw [addOneofGroup_eq]
    simp [hp]
  · rw [addOneofGroup_eq]
    simp
  · intro f hf
    have hk : memberKept conf f = true := (List.mem_filter.mp hf).2
    have hs : (namedSchemaForField conf f s true).isSome = true := by
      rw [namedSchemaForField_isSome]
      exact hk
    obtain ⟨vp, hvp⟩ := Option.isSome_iff_exists.mp hs
    refine ⟨vp, ?_, rfl, rfl, rfl, namedSchemaForField_value_name conf f s vp hvp⟩
    simp [memberDefFor, hvp]

/-- C4, witness at a concrete group with one kept and one skipped member. -/
theorem C4_union_witness :
    (addOneofGroup confJson bookSetup contactOneof).value.properties
      = some ([] ++ [groupPropFor confJson bookSetup.name contactOneof]) ∧
    (groupPropFor confJson bookSetup.name contactOneof).value.oneOf
      = some (nullTypeSchema :: keptRefs confJson bookSetup.name contactOneof.fields) ∧
    (keptRefs confJson bookSetup.name contactOneof.fields).length
      = (contactOneof.fields.filter (memberKept confJson)).length :=
  ⟨(C4_oneof_union_shape confJson bookSetup [] rfl contactOneof).1,
   (C4_oneof_union_shape confJson bookSetup [] rfl contactOneof).2.1,
   (C4_oneof_union_shape confJson bookSetup [] rfl contactOneof).2.2.1⟩

/-!
Claim C5.
-/

/-- C5, counterexample: the member declared `email` (Go name `Email`) on
document Book yields the local definition `Book_Email`, not the claimed
`Book_email` built from the declared field name. -/
theorem C5_counterexample_goName :
    emailMemberField.desc.name = "email" ∧
    ((addOneofGroup confJson bookSetup contactOneof).value.definitions).map
        (fun l => l.map NamedSchema.name)
      = some ["Book_Email"] ∧
    ("Book_Email" : String) ≠ "Book" ++ "_" ++ emailMemberField.desc.name :=
  ⟨rfl, rfl, by decide⟩

/-- C5 (amended): each kept oneof member is registered under the name
`"<OwningDocName>_<MemberGoName>"`, using the member's protogen Go name
(the capitalized Go identifier, e.g. `Email` for a field declared
`email`), and the reference appended to the union list is
`"#/definitions/"` followed by that same name. -/
theorem C5_member_definition_names (conf : Configuration) (s : NamedSchema) (g : Oneof) :
    (addOneofGroup conf s g).value.definitions
      = appendDefs s.value.definitions (keptDefs conf s g.fields) ∧
    keptDefs conf s g.fields
      = (g.fields.filter (memberKept conf)).map (memberDefFor conf s) ∧
    (∀ f : ProtoField, (memberDefFor conf s f).name = s.name ++ "_" ++ f.goName) ∧
    keptRefs conf s.name g.fields
      = (g.fields.filter (memberKept conf)).map
          (fun f => localRefSchema ("#/definitions/" ++ (s.name ++ "_" ++ f.goName))) := by
  refine ⟨?_, rfl, fun f => rfl, rfl⟩
  rw [addOneofGroup_eq]
  simp

/-!
Claim C10.
-/

/-- C10: every oneof-derived property carries a default of JSON null, and a
group all of whose members are skipped still yields its property, with the
single null alternative and the null default. -/
theorem C10_oneof_default_null (conf : Configuration) (gs : List Oneof) (s : NamedSchema)
    (ps : List NamedSchema) (hp : s.value.properties = some ps) :
    (addOneofFieldsToSchema conf gs s).value.properties
      = some (ps ++ groupPropsFor conf s.name gs) ∧
    (∀ g : Oneof,
      (groupPropFor conf s.name g).value.core.default = some { nullTag := true } ∧
      (g.fields.filter (memberKept conf) = [] →
        (groupPropFor conf s.name g).value.oneOf = some [nullTypeSchema])) := by
  refine ⟨?_, fun g => ⟨rfl, fun hempty => ?_⟩⟩
  · rw [addOneofFields_eq conf gs s ps hp]
    simp
  · simp [groupPropFor, keptRefs, hempty]

/-- C10, witness: the group whose only member is skipped still yields its
property with the null default and the lone null alternative. -/
theorem C10_witness :
    (addOneofFieldsToSchema confJson [emptyOnlyOneof] bookSetup).value.properties
      = some ([] ++ groupPropsFor confJson bookSetup.name [emptyOnlyOneof]) ∧
    (groupPropFor confJson bookSetup.name emptyOnlyOneof).value.core.default
      = some { nullTag := true } ∧
    (groupPropFor confJson bookSetup.name emptyOnlyOneof).value.oneOf
      = some [nullTypeSchema] :=
  ⟨(C10_oneof_default_null confJson [emptyOnlyOneof] bookSetup [] rfl).1,
   ((C10_oneof_default_null confJson [emptyOnlyOneof] bookSetup [] rfl).2 emptyOnlyOneof).1,
   ((C10_oneof_default_null confJson [emptyOnlyOneof] bookSetup [] rfl).2 emptyOnlyOneof).2 rfl⟩
